import Mathlib

/-!
Verification of the goldbach-primorials repository.

This file gives a shallow embedding of the three Python source files
(`goldbach_count.py`, `lpf_symmetry_verification.py`, `amplification_testing.py`)
and proves or refutes the frozen claims about them.

Conventions of the embedding:
* Python `range(a, b, s)` (positive step) becomes `pyRange a b s`.
* A Python `bytearray` of 0/1 flags becomes a `List Bool`; an index assignment
  that can be out of range (raising `IndexError`) is modelled by returning
  `none` from the enclosing function.
* Python `int` arithmetic becomes `Nat`/`Int` arithmetic.
* Calls into the sympy library (`isprime`, `factorint`, `nextprime`, `prime`,
  `primorial`) are modelled by their documented mathematical meaning, with the
  correspondence to Mathlib notions proved where it matters.
* Floating point formulas (`amplification_testing.py`) are modelled over `ℝ`,
  with `float('inf')` modelled as `⊤ : EReal`.
-/

/-- Python `range(a, b, s)` for a positive step `s`, as a list of naturals:
the elements `a, a + s, a + 2*s, ...` strictly below `b`. -/
def pyRange (a b s : Nat) : List Nat :=
  List.range' a ((b - a + s - 1) / s) s

/-- Membership in `pyRange`: exactly the integers in `[a, b)` congruent to `a`
modulo the step. -/
theorem mem_pyRange {s : Nat} (hs : 0 < s) {a b x : Nat} :
    x ∈ pyRange a b s ↔ a ≤ x ∧ x < b ∧ (x - a) % s = 0 := by
  unfold pyRange
  rw [List.mem_range']
  constructor
  · rintro ⟨i, hi, rfl⟩
    have hd : 0 < b - a := by
      by_contra hba
      have hz : b - a = 0 := by omega
      rw [hz] at hi
      have : (0 + s - 1) / s = 0 := by
        rw [Nat.div_eq_of_lt]
        omega
      omega
    have h1 : i + 1 ≤ (b - a + s - 1) / s := hi
    have h2 : (i + 1) * s ≤ b - a + s - 1 := (Nat.le_div_iff_mul_le hs).mp h1
    have h3 : (i + 1) * s = s * i + s := by ring
    refine ⟨by omega, by omega, ?_⟩
    simp [Nat.add_sub_cancel_left, Nat.mul_mod_right]
  · rintro ⟨hax, hxb, hmod⟩
    have hdvd : s ∣ (x - a) := Nat.dvd_of_mod_eq_zero hmod
    obtain ⟨i, hi⟩ := hdvd
    refine ⟨i, ?_, by omega⟩
    have h3 : (i + 1) * s = s * i + s := by ring
    have h2 : (i + 1) * s ≤ b - a + s - 1 := by omega
    exact (Nat.le_div_iff_mul_le hs).mpr h2

/-- A step-2 `List.range'` written as a filter of an initial segment of `ℕ`. -/
theorem range'_two_eq_filter (a : Nat) :
    ∀ l : Nat, List.range' a l 2 =
      (List.range (a + 2 * l)).filter (fun x => decide (a ≤ x) && decide (x % 2 = a % 2))
  | 0 => by
    have hnil : (List.range (a + 2 * 0)).filter
        (fun x => decide (a ≤ x) && decide (x % 2 = a % 2)) = [] := by
      rw [List.filter_eq_nil_iff]
      intro x hx
      rw [List.mem_range] at hx
      simp only [Bool.and_eq_true, decide_eq_true_eq, not_and]
      omega
    rw [hnil, List.range']
  | l + 1 => by
    rw [List.range'_concat, range'_two_eq_filter a l]
    have h1 : a + 2 * (l + 1) = (a + 2 * l) + 1 + 1 := by omega
    rw [h1, List.range_succ, List.range_succ, List.filter_append, List.filter_append]
    have h2 : (List.filter (fun x => decide (a ≤ x) && decide (x % 2 = a % 2))
        [a + 2 * l]) = [a + 2 * l] := by
      simp only [List.filter_cons, List.filter_nil]
      have hc : (decide (a ≤ a + 2 * l) && decide ((a + 2 * l) % 2 = a % 2)) = true := by
        simp only [Bool.and_eq_true, decide_eq_true_eq]
        omega
      rw [hc]
      rfl
    have h3 : (List.filter (fun x => decide (a ≤ x) && decide (x % 2 = a % 2))
        [a + 2 * l + 1]) = [] := by
      simp only [List.filter_cons, List.filter_nil]
      have hc : (decide (a ≤ a + 2 * l + 1) && decide ((a + 2 * l + 1) % 2 = a % 2)) = false := by
        simp only [Bool.and_eq_false_iff, decide_eq_false_iff_not]
        omega
      rw [hc]
      rfl
    rw [h2, h3, List.append_assoc, List.append_nil]

/-- The length of a `pyRange`. -/
theorem length_pyRange (a b s : Nat) :
    (pyRange a b s).length = (b - a + s - 1) / s := by
  unfold pyRange
  exact List.length_range' ..

/-- Marking pass of the sieve: set every listed index of the table to `false`
(Python `for x in xs: table[x] = 0`; all uses below stay in bounds, where
`List.set` agrees with Python index assignment). -/
def markList (t : List Bool) (xs : List Nat) : List Bool :=
  xs.foldl (fun u i => u.set i false) t

theorem length_markList (xs : List Nat) : ∀ t : List Bool, (markList t xs).length = t.length := by
  induction xs with
  | nil => intro t; rfl
  | cons x xs ih =>
    intro t
    show (markList (t.set x false) xs).length = t.length
    rw [ih, List.length_set]

theorem getD_set_false (t : List Bool) (i j : Nat) :
    (t.set i false).getD j false = if j = i then false else t.getD j false := by
  by_cases h : j = i
  · subst h
    by_cases hl : j < t.length
    · simp [List.getD_eq_getElem?_getD, List.getElem?_set, hl]
    · rw [if_pos rfl]
      rw [List.getD_eq_getElem?_getD, List.getElem?_eq_none (by simp; omega)]
      rfl
  · simp [List.getD_eq_getElem?_getD, List.getElem?_set, Ne.symm h, h]

theorem getD_markList (xs : List Nat) : ∀ (t : List Bool) (j : Nat),
    (markList t xs).getD j false = if j ∈ xs then false else t.getD j false := by
  induction xs with
  | nil => intro t j; simp [markList]
  | cons x xs ih =>
    intro t j
    show (markList (t.set x false) xs).getD j false = _
    rw [ih]
    by_cases hx : j ∈ xs
    · simp [hx]
    · rw [if_neg hx, getD_set_false]
      by_cases hjx : j = x
      · subst hjx; simp
      · simp [hjx, hx]

/-- First passes of `sieve_is_prime`: all-true table of size `n + 1`, indices
0 and 1 cleared (`is_prime[0:2] = b"\x00\x00"`), then every even index from 4
cleared. -/
def sieveBase (n : Nat) : List Bool :=
  markList (((List.replicate (n + 1) true).set 0 false).set 1 false) (pyRange 4 (n + 1) 2)

/-- Main loop of `sieve_is_prime`: for each odd `p` from 3 to `isqrt n`, if
`p` is still marked, clear all multiples of `p` from `p * p` on. -/
def sieveLoop (n : Nat) (t : List Bool) : List Bool :=
  (pyRange 3 (Nat.sqrt n + 1) 2).foldl
    (fun t p => if t.getD p false then markList t (pyRange (p * p) (n + 1) p) else t) t

/-- Embedding of `sieve_is_prime` from `goldbach_count.py`.  Returns `none`
exactly when the Python code raises `IndexError` (the final write
`is_prime[2] = ...` lands outside the table, which happens for `n = 1`
because the early-return guard is `n < 1` rather than `n < 2`). -/
def sieve_is_prime (n : Nat) : Option (List Bool) :=
  if n < 1 then some (List.replicate (n + 1) false)
  else if 2 < (sieveLoop n (sieveBase n)).length then
    some ((sieveLoop n (sieveBase n)).set 2 (decide (2 ≤ n)))
  else none

/-- An index `j` has been crossed out once all odd primes `< q` have been
processed by the sieve's main loop: some prime `p` with `3 ≤ p < q` has a
multiple `p * m`, `m ≥ p` (i.e. at least `p*p`), equal to `j`. -/
def sieveMarked (q j : Nat) : Prop :=
  ∃ p, Nat.Prime p ∧ 3 ≤ p ∧ p < q ∧ ∃ m, p ≤ m ∧ j = p * m

theorem sieveMarked_mono {q q' j : Nat} (h : q ≤ q') :
    sieveMarked q j → sieveMarked q' j := by
  rintro ⟨p, pp, h3, hq, m, hm, rfl⟩
  exact ⟨p, pp, h3, by omega, m, hm, rfl⟩

theorem sieveMarked_not_prime {q j : Nat} : sieveMarked q j → ¬ Nat.Prime j := by
  rintro ⟨p, pp, h3, _, m, hm, rfl⟩ hj
  rcases (Nat.Prime.eq_one_or_self_of_dvd hj p ⟨m, rfl⟩) with h1 | h1
  · omega
  · have hp1 : 1 < p := pp.one_lt
    nlinarith

theorem sieveMarked_of_not_prime {j : Nat} (hodd : j % 2 = 1) (h3 : 3 ≤ j)
    (hnp : ¬ Nat.Prime j) : sieveMarked (Nat.minFac j + 1) j := by
  have hj1 : j ≠ 1 := by omega
  have hd : Nat.Prime (Nat.minFac j) := Nat.minFac_prime hj1
  have hdvd : Nat.minFac j ∣ j := Nat.minFac_dvd j
  have hd2 : Nat.minFac j ≠ 2 := by
    intro h2
    rw [h2] at hdvd
    omega
  have hd3 : 3 ≤ Nat.minFac j := by
    have := hd.two_le
    omega
  have hsq : Nat.minFac j * Nat.minFac j ≤ j := by
    have := Nat.minFac_sq_le_self (by omega : 0 < j) hnp
    rwa [Nat.pow_two] at this
  refine ⟨Nat.minFac j, hd, hd3, by omega, j / Nat.minFac j, ?_, ?_⟩
  · have hj : Nat.minFac j * (j / Nat.minFac j) = j := Nat.mul_div_cancel' hdvd
    by_contra hlt
    push_neg at hlt
    nlinarith
  · exact (Nat.mul_div_cancel' hdvd).symm

theorem not_sieveMarked_self_iff {p : Nat} (hodd : p % 2 = 1) (h3 : 3 ≤ p) :
    ¬ sieveMarked p p ↔ Nat.Prime p := by
  constructor
  · intro hnm
    by_contra hnp
    have hm := sieveMarked_of_not_prime hodd h3 hnp
    have hlt : Nat.minFac p < p := by
      have hsq : Nat.minFac p * Nat.minFac p ≤ p := by
        have := Nat.minFac_sq_le_self (by omega : 0 < p) hnp
        rwa [Nat.pow_two] at this
      have hd3 : 2 ≤ Nat.minFac p := (Nat.minFac_prime (by omega : p ≠ 1)).two_le
      nlinarith
    exact hnm (sieveMarked_mono (by omega) hm)
  · intro hp hm
    rcases hm with ⟨d, dp, hd3, hdp, m, hmm, heq⟩
    rcases hp.eq_one_or_self_of_dvd d ⟨m, heq⟩ with h | h <;> omega

/-- Invariant of the sieve's odd-candidate loop: the table has full length and
an entry `j ≤ n` is still `true` exactly when `j = 2` or `j` is an odd number
`≥ 3` not yet crossed out by a prime below the loop counter `q`. -/
def sieveInv (n q : Nat) (t : List Bool) : Prop :=
  t.length = n + 1 ∧
  ∀ j, j ≤ n →
    (t.getD j false = true ↔ (j = 2 ∨ (j % 2 = 1 ∧ 3 ≤ j ∧ ¬ sieveMarked q j)))

theorem getD_replicate_true {n j : Nat} (hj : j < n) :
    (List.replicate n true).getD j false = true := by
  rw [List.getD_eq_getElem?_getD, List.getElem?_replicate, if_pos hj]
  rfl

/-- After the even-elimination pass the invariant holds with loop counter 3
(no odd prime has been processed yet). -/
theorem sieveInv_init (n : Nat) (_hn : 1 ≤ n) :
    sieveInv n 3
      (markList (((List.replicate (n + 1) true).set 0 false).set 1 false)
        (pyRange 4 (n + 1) 2)) := by
  constructor
  · rw [length_markList, List.length_set, List.length_set, List.length_replicate]
  · intro j hj
    rw [getD_markList, getD_set_false, getD_set_false]
    have hm3 : ¬ sieveMarked 3 j := by
      rintro ⟨p, _, h3, hlt, _⟩
      omega
    have hmem : j ∈ pyRange 4 (n + 1) 2 ↔ (4 ≤ j ∧ j < n + 1 ∧ (j - 4) % 2 = 0) :=
      mem_pyRange (by omega)
    by_cases he : j ∈ pyRange 4 (n + 1) 2
    · rw [if_pos he]
      rw [hmem] at he
      refine ⟨fun hft => absurd hft (by decide), ?_⟩
      rintro (h2 | ⟨hoddj, h3j, _⟩) <;> omega
    · rw [if_neg he]
      rw [hmem] at he
      push_neg at he
      by_cases h1 : j = 1
      · subst h1
        rw [if_pos rfl]
        refine ⟨fun hft => absurd hft (by decide), ?_⟩
        rintro (h2 | ⟨hoddj, h3j, _⟩) <;> omega
      · rw [if_neg h1]
        by_cases h0 : j = 0
        · subst h0
          rw [if_pos rfl]
          refine ⟨fun hft => absurd hft (by decide), ?_⟩
          rintro (h2 | ⟨hoddj, h3j, _⟩) <;> omega
        · rw [if_neg h0, getD_replicate_true (by omega)]
          simp only [true_iff]
          by_cases h2 : j = 2
          · exact Or.inl h2
          · refine Or.inr ⟨?_, by omega, hm3⟩
            rcases Nat.even_or_odd j with hev | hod
            · exfalso
              rcases hev with ⟨m, hym⟩
              have h4 : 4 ≤ j := by omega
              exact absurd (by omega) (he h4 (by omega))
            · exact Nat.odd_iff.mp hod

/-- Everything the sieve still has to look at, from one odd candidate `p`:
processing `p` advances the invariant counter from `p` to `p + 2`. -/
theorem sieveInv_step (n p : Nat) (hodd : p % 2 = 1) (hp3 : 3 ≤ p)
    (hpsqrt : p ≤ Nat.sqrt n) (t : List Bool) (h : sieveInv n p t) :
    sieveInv n (p + 2)
      (if t.getD p false then markList t (pyRange (p * p) (n + 1) p) else t) := by
  have hpn : p ≤ n := le_trans hpsqrt (Nat.sqrt_le_self n)
  have hchar : t.getD p false = true ↔ Nat.Prime p := by
    rw [h.2 p hpn]
    constructor
    · rintro (h2 | ⟨_, _, hnm⟩)
      · omega
      · exact (not_sieveMarked_self_iff hodd hp3).mp hnm
    · intro hp
      exact Or.inr ⟨hodd, hp3, (not_sieveMarked_self_iff hodd hp3).mpr hp⟩
  have hsucc_not_prime : ¬ Nat.Prime (p + 1) := by
    intro hq
    rcases hq.eq_one_or_self_of_dvd 2 (Nat.dvd_of_mod_eq_zero (by omega)) with h2 | h2 <;> omega
  rcases hbool : t.getD p false with _ | _
  · rw [if_neg (by decide : ¬ (false = true))]
    have hnp : ¬ Nat.Prime p := fun hp => by
      rw [hchar.mpr hp] at hbool
      exact absurd hbool (by decide)
    refine ⟨h.1, fun j hj => ?_⟩
    rw [h.2 j hj]
    have hiff : sieveMarked (p + 2) j ↔ sieveMarked p j := by
      constructor
      · rintro ⟨d, dp, hd3, hdlt, m, hm, rfl⟩
        have hd : d < p ∨ d = p ∨ d = p + 1 := by omega
        rcases hd with hd | hd | hd
        · exact ⟨d, dp, hd3, hd, m, hm, rfl⟩
        · exact absurd (hd ▸ dp) hnp
        · exact absurd (hd ▸ dp) hsucc_not_prime
      · exact sieveMarked_mono (by omega)
    rw [hiff]
  · rw [if_pos rfl]
    have hp : Nat.Prime p := hchar.mp hbool
    refine ⟨by rw [length_markList]; exact h.1, fun j hj => ?_⟩
    rw [getD_markList]
    have hmem : j ∈ pyRange (p * p) (n + 1) p ↔ ∃ m, p ≤ m ∧ j = p * m := by
      rw [mem_pyRange (by omega)]
      constructor
      · rintro ⟨hpp, _, hmod⟩
        obtain ⟨i, hi⟩ := Nat.dvd_of_mod_eq_zero hmod
        refine ⟨p + i, by omega, ?_⟩
        have hx : p * (p + i) = p * p + p * i := by ring
        omega
      · rintro ⟨m, hm, rfl⟩
        refine ⟨Nat.mul_le_mul_left p hm, by omega, ?_⟩
        have : p * m - p * p = p * (m - p) := by
          rw [Nat.mul_sub]
        rw [this, Nat.mul_mod_right]
    by_cases hin : j ∈ pyRange (p * p) (n + 1) p
    · rw [if_pos hin]
      rw [hmem] at hin
      obtain ⟨m, hm, rfl⟩ := hin
      refine ⟨fun hft => absurd hft (by decide), ?_⟩
      rintro (h2 | ⟨hoddj, h3j, hnm⟩)
      · have h9 : 3 * 3 ≤ p * m := Nat.mul_le_mul (by omega) (by omega)
        omega
      · exact absurd ⟨p, hp, hp3, by omega, m, hm, rfl⟩ hnm
    · rw [if_neg hin]
      rw [hmem] at hin
      rw [h.2 j hj]
      have hiff : sieveMarked (p + 2) j ↔ sieveMarked p j := by
        constructor
        · rintro ⟨d, dp, hd3, hdlt, m, hm, rfl⟩
          have hd : d < p ∨ d = p ∨ d = p + 1 := by omega
          rcases hd with hd | hd | hd
          · exact ⟨d, dp, hd3, hd, m, hm, rfl⟩
          · subst hd
            exact absurd ⟨m, hm, rfl⟩ hin
          · exact absurd (hd ▸ dp) hsucc_not_prime
        · exact sieveMarked_mono (by omega)
      rw [hiff]

/-- Folding the sieve's marking step over a list of odd candidates advances the
invariant counter past all of them. -/
theorem sieveInv_fold (n : Nat) : ∀ (l a : Nat), a % 2 = 1 → 3 ≤ a →
    (∀ x ∈ List.range' a l 2, x ≤ Nat.sqrt n) →
    ∀ t, sieveInv n a t →
    sieveInv n (a + 2 * l)
      ((List.range' a l 2).foldl
        (fun t p => if t.getD p false then markList t (pyRange (p * p) (n + 1) p) else t) t)
  | 0, a, _, _, _, t, h => by simpa using h
  | l + 1, a, hodd, h3, hbound, t, h => by
    rw [List.range'_succ]
    simp only [List.foldl_cons]
    have ha : a ≤ Nat.sqrt n := hbound a (by rw [List.range'_succ]; exact List.mem_cons_self ..)
    have hstep := sieveInv_step n a hodd h3 ha t h
    have hrec := sieveInv_fold n l (a + 2) (by omega) (by omega)
      (fun x hx => hbound x (by rw [List.range'_succ]; exact List.mem_cons_of_mem _ hx)) _ hstep
    have harith : a + 2 + 2 * l = a + 2 * (l + 1) := by omega
    rwa [harith] at hrec

theorem getD_set_of_lt (t : List Bool) (i j : Nat) (v : Bool) (hi : i < t.length) :
    (t.set i v).getD j false = if j = i then v else t.getD j false := by
  by_cases h : j = i
  · subst h
    simp [List.getD_eq_getElem?_getD, List.getElem?_set, hi]
  · simp [List.getD_eq_getElem?_getD, List.getElem?_set, Ne.symm h, h]

/-- Correctness of `sieve_is_prime` for all `n ≥ 2`: the run succeeds, the
table has size `n + 1`, and entry `j` holds exactly the primality of `j`. -/
theorem sieve_is_prime_correct (n : Nat) (hn : 2 ≤ n) :
    ∃ l, sieve_is_prime n = some l ∧ l.length = n + 1 ∧
      ∀ j, j ≤ n → l.getD j false = decide (Nat.Prime j) := by
  have hinv0 : sieveInv n 3 (sieveBase n) := sieveInv_init n (by omega)
  have hL : pyRange 3 (Nat.sqrt n + 1) 2 = List.range' 3 ((Nat.sqrt n - 1) / 2) 2 := by
    unfold pyRange
    have harith : (Nat.sqrt n + 1 - 3 + 2 - 1) / 2 = (Nat.sqrt n - 1) / 2 := by omega
    rw [harith]
  have hbound : ∀ x ∈ List.range' 3 ((Nat.sqrt n - 1) / 2) 2, x ≤ Nat.sqrt n := by
    intro x hx
    rw [List.mem_range'] at hx
    obtain ⟨i, hi, rfl⟩ := hx
    omega
  have hfold : sieveInv n (3 + 2 * ((Nat.sqrt n - 1) / 2)) (sieveLoop n (sieveBase n)) := by
    unfold sieveLoop
    rw [hL]
    exact sieveInv_fold n ((Nat.sqrt n - 1) / 2) 3 (by omega) (by omega) hbound _ hinv0
  have hq : Nat.sqrt n < 3 + 2 * ((Nat.sqrt n - 1) / 2) := by omega
  have hlen : (sieveLoop n (sieveBase n)).length = n + 1 := hfold.1
  unfold sieve_is_prime
  rw [if_neg (by omega), if_pos (by omega)]
  refine ⟨_, rfl, by rw [List.length_set]; exact hlen, ?_⟩
  intro j hj
  have hdec2 : decide (2 ≤ n) = true := decide_eq_true (by omega)
  rw [hdec2, getD_set_of_lt _ _ _ _ (by omega)]
  by_cases hj2 : j = 2
  · subst hj2
    rw [if_pos rfl]
    exact (decide_eq_true (by norm_num)).symm
  · rw [if_neg hj2]
    have hchar := hfold.2 j hj
    rcases hbj : (sieveLoop n (sieveBase n)).getD j false with _ | _
    · rw [hbj] at hchar
      symm
      rw [decide_eq_false_iff_not]
      intro hp
      have hne : ¬ (j = 2 ∨ (j % 2 = 1 ∧ 3 ≤ j ∧
          ¬ sieveMarked (3 + 2 * ((Nat.sqrt n - 1) / 2)) j)) := by
        intro hor
        exact absurd (hchar.mpr hor) (by decide)
      apply hne
      right
      have h2le := hp.two_le
      have hjodd : j % 2 = 1 := by
        rcases Nat.Prime.eq_two_or_odd hp with h | h
        · omega
        · exact h
      exact ⟨hjodd, by omega, fun hm => sieveMarked_not_prime hm hp⟩
    · rw [hbj] at hchar
      symm
      rw [decide_eq_true_eq]
      rcases hchar.mp rfl with h2 | ⟨hjodd, hj3, hnm⟩
      · omega
      · by_contra hnp
        apply hnm
        apply sieveMarked_mono ?_ (sieveMarked_of_not_prime hjodd hj3 hnp)
        have hmf : Nat.minFac j * Nat.minFac j ≤ j := by
          have := Nat.minFac_sq_le_self (by omega : 0 < j) hnp
          rwa [Nat.pow_two] at this
        have : Nat.minFac j ≤ Nat.sqrt n := by
          rw [Nat.le_sqrt]
          omega
        omega

theorem sieve_is_prime_eq_some {n : Nat} (hn : 2 ≤ n) {l : List Bool}
    (h : sieve_is_prime n = some l) :
    l.length = n + 1 ∧ ∀ j, j ≤ n → l.getD j false = decide (Nat.Prime j) := by
  obtain ⟨l0, hl0, hlen, hval⟩ := sieve_is_prime_correct n hn
  rw [hl0] at h
  cases h
  exact ⟨hlen, hval⟩

/-- Splitting a prime-filtered initial segment into the contribution of 2 and
the contribution of the odd primes from 3 on (`Q` is an arbitrary extra
filter, used for the Goldbach condition on `N - p`). -/
theorem filter_range_prime_split (Q : Nat → Bool) (m : Nat) (hm : 3 ≤ m) :
    (List.range m).filter (fun p => decide (Nat.Prime p) && Q p) =
      ((if Q 2 then [2] else []) ++
        (List.range m).filter
          (fun p => (decide (3 ≤ p) && decide (p % 2 = 1)) && (decide (Nat.Prime p) && Q p))) := by
  induction m with
  | zero => omega
  | succ m ih =>
    by_cases hm3 : 3 ≤ m
    · rw [List.range_succ, List.filter_append, List.filter_append, ih hm3, List.append_assoc]
      congr 1
      congr 1
      simp only [List.filter_cons, List.filter_nil]
      have hbool : ((decide (3 ≤ m) && decide (m % 2 = 1)) && (decide (Nat.Prime m) && Q m))
          = (decide (Nat.Prime m) && Q m) := by
        by_cases hp : Nat.Prime m
        · have h3 : decide (3 ≤ m) = true := decide_eq_true hm3
          have hodd : decide (m % 2 = 1) = true := by
            apply decide_eq_true
            rcases Nat.Prime.eq_two_or_odd hp with h | h
            · omega
            · exact h
          rw [h3, hodd]
          simp
        · have hf : decide (Nat.Prime m) = false := decide_eq_false hp
          rw [hf]
          simp
      rw [hbool]
    · have hm2 : m = 2 := by omega
      subst hm2
      have h1 : List.range 3 = [0, 1, 2] := by rfl
      rw [h1]
      simp only [List.filter_cons, List.filter_nil]
      have hd0 : decide (Nat.Prime 0) = false := by decide
      have hd1 : decide (Nat.Prime 1) = false := by decide
      have hd2 : decide (Nat.Prime 2) = true := by decide
      have h30 : decide (3 ≤ (0 : Nat)) = false := by decide
      have h31 : decide (3 ≤ (1 : Nat)) = false := by decide
      have h32 : decide (3 ≤ (2 : Nat)) = false := by decide
      rw [hd0, hd1, hd2, h30, h31, h32]
      simp

/-- Embedding of `goldbach_count` from `goldbach_count.py`: for `N < 4` or odd
`N` it returns 0 (it does not raise), otherwise it counts `p = 2` separately
and then every odd `p ≤ N // 2` with both table entries set. -/
def goldbach_count (N : Nat) (is_prime : List Bool) : Nat :=
  if N < 4 ∨ N % 2 = 1 then 0
  else
    (if 2 ≤ N / 2 ∧ is_prime.getD 2 false = true ∧ is_prime.getD (N - 2) false = true
      then 1 else 0)
    + (pyRange 3 (N / 2 + 1) 2).countP
        (fun p => is_prime.getD p false && is_prime.getD (N - p) false)

/-- Specification count, written from the claim: the number of primes
`p ≤ N / 2` with `N - p` prime. -/
def goldbach_spec_count (N : Nat) : Nat :=
  ((List.range (N / 2 + 1)).filter
    (fun p => decide (Nat.Prime p) && decide (Nat.Prime (N - p)))).length

/-- With an exact primality table for `[0, N]`, `goldbach_count` computes the
specification count, for every even `N ≥ 4`. -/
theorem goldbach_count_correct (N : Nat) (t : List Bool) (h4 : 4 ≤ N) (hev : N % 2 = 0)
    (ht : ∀ j, j ≤ N → t.getD j false = decide (Nat.Prime j)) :
    goldbach_count N t = goldbach_spec_count N := by
  have hhalf2 : 2 ≤ N / 2 := by omega
  have hhalfN : N / 2 + 1 ≤ N := by omega
  unfold goldbach_count
  rw [if_neg (by omega)]
  have hc2 : (if 2 ≤ N / 2 ∧ t.getD 2 false = true ∧ t.getD (N - 2) false = true
      then 1 else 0) = (if decide (Nat.Prime (N - 2)) = true then 1 else 0) := by
    apply if_congr _ rfl rfl
    rw [ht 2 (by omega), ht (N - 2) (by omega)]
    constructor
    · rintro ⟨_, _, hb⟩
      exact hb
    · intro hb
      exact ⟨hhalf2, by decide, hb⟩
  rw [hc2]
  have hl0 : pyRange 3 (N / 2 + 1) 2 = List.range' 3 ((N / 2 - 1) / 2) 2 := by
    unfold pyRange
    have harith : (N / 2 + 1 - 3 + 2 - 1) / 2 = (N / 2 - 1) / 2 := by omega
    rw [harith]
  set l0 := (N / 2 - 1) / 2 with hl0def
  set M := 3 + 2 * l0 with hMdef
  have hMcase : M = N / 2 + 1 ∨ (M = N / 2 + 2 ∧ (N / 2) % 2 = 1) := by omega
  have hcnt : (pyRange 3 (N / 2 + 1) 2).countP
        (fun p => t.getD p false && t.getD (N - p) false)
      = ((List.range M).filter
          (fun p => (decide (3 ≤ p) && decide (p % 2 = 1))
            && (decide (Nat.Prime p) && decide (Nat.Prime (N - p))))).length := by
    rw [hl0, range'_two_eq_filter, List.countP_eq_length_filter, List.filter_filter]
    congr 1
    apply List.filter_congr
    intro x hx
    rw [List.mem_range] at hx
    have hxN : x ≤ N := by omega
    have hNxN : N - x ≤ N := by omega
    rw [ht x hxN, ht (N - x) hNxN]
    have h32 : (3 : Nat) % 2 = 1 := by rfl
    rw [h32]
    rcases decide (3 ≤ x) with _ | _ <;> rcases decide (x % 2 = 1) with _ | _ <;>
      rcases decide (Nat.Prime x) with _ | _ <;> rcases decide (Nat.Prime (N - x)) with _ | _ <;>
      rfl
  rw [hcnt]
  have htrim : ((List.range M).filter
          (fun p => (decide (3 ≤ p) && decide (p % 2 = 1))
            && (decide (Nat.Prime p) && decide (Nat.Prime (N - p))))).length
      = ((List.range (N / 2 + 1)).filter
          (fun p => (decide (3 ≤ p) && decide (p % 2 = 1))
            && (decide (Nat.Prime p) && decide (Nat.Prime (N - p))))).length := by
    rcases hMcase with hM | ⟨hM, hhodd⟩
    · rw [hM]
    · rw [hM]
      have hstep : List.range (N / 2 + 2) = List.range (N / 2 + 1) ++ [N / 2 + 1] :=
        List.range_succ (N / 2 + 1)
      rw [hstep, List.filter_append, List.length_append]
      have hnil : (List.filter
          (fun p => (decide (3 ≤ p) && decide (p % 2 = 1))
            && (decide (Nat.Prime p) && decide (Nat.Prime (N - p)))) [N / 2 + 1]) = [] := by
        simp only [List.filter_cons, List.filter_nil]
        have hodd : decide ((N / 2 + 1) % 2 = 1) = false := decide_eq_false (by omega)
        rw [hodd]
        simp
      rw [hnil]
      simp
  rw [htrim]
  unfold goldbach_spec_count
  rw [filter_range_prime_split (fun p => decide (Nat.Prime (N - p))) (N / 2 + 1) (by omega)]
  rw [List.length_append]
  congr 1
  rcases hq : decide (Nat.Prime (N - 2)) with _ | _ <;> simp [hq]

/-- Embedding of `primes_up_to` from `goldbach_count.py`, with the primality
table passed explicitly (as in every call site): `[2] + [i for i in
range(3, n + 1, 2) if is_prime[i]]`. -/
def primes_up_to (n : Nat) (is_prime : List Bool) : List Nat :=
  if n < 2 then []
  else 2 :: (pyRange 3 (n + 1) 2).filter (fun i => is_prime.getD i false)

/-- The primes below a bound, as a filtered range. -/
def primesBelow (m : Nat) : List Nat :=
  (List.range m).filter (fun i => decide (Nat.Prime i))

theorem primes_up_to_correct (n : Nat) (t : List Bool) (hn : 2 ≤ n)
    (ht : ∀ j, j ≤ n → t.getD j false = decide (Nat.Prime j)) :
    primes_up_to n t = primesBelow (n + 1) := by
  unfold primes_up_to
  rw [if_neg (by omega)]
  have hl0 : pyRange 3 (n + 1) 2 = List.range' 3 ((n - 1) / 2) 2 := by
    unfold pyRange
    have harith : (n + 1 - 3 + 2 - 1) / 2 = (n - 1) / 2 := by omega
    rw [harith]
  set l0 := (n - 1) / 2 with hl0def
  set M := 3 + 2 * l0 with hMdef
  have hMcase : M = n + 1 ∨ (M = n + 2 ∧ n % 2 = 1) := by omega
  have hfil : (pyRange 3 (n + 1) 2).filter (fun i => t.getD i false)
      = (List.range M).filter
          (fun p => (decide (3 ≤ p) && decide (p % 2 = 1)) && (decide (Nat.Prime p) && true)) := by
    rw [hl0, range'_two_eq_filter, List.filter_filter]
    apply List.filter_congr
    intro x hx
    rw [List.mem_range] at hx
    have hxn : x ≤ n ∨ x = n + 1 := by omega
    have h32 : (3 : Nat) % 2 = 1 := by rfl
    rw [h32]
    rcases hxn with hxn | hxn
    · rw [ht x hxn]
      rcases decide (3 ≤ x) with _ | _ <;> rcases decide (x % 2 = 1) with _ | _ <;>
        rcases decide (Nat.Prime x) with _ | _ <;> rfl
    · subst hxn
      have hM2 : n % 2 = 1 := by omega
      have hoddf : decide ((n + 1) % 2 = 1) = false := decide_eq_false (by omega)
      rw [hoddf]
      simp
  rw [hfil]
  have htrim : (List.range M).filter
        (fun p => (decide (3 ≤ p) && decide (p % 2 = 1)) && (decide (Nat.Prime p) && true))
      = (List.range (n + 1)).filter
        (fun p => (decide (3 ≤ p) && decide (p % 2 = 1)) && (decide (Nat.Prime p) && true)) := by
    rcases hMcase with hM | ⟨hM, hnodd⟩
    · rw [hM]
    · rw [hM]
      have hstep : List.range (n + 2) = List.range (n + 1) ++ [n + 1] :=
        List.range_succ (n + 1)
      rw [hstep, List.filter_append]
      have hnil : (List.filter
          (fun p => (decide (3 ≤ p) && decide (p % 2 = 1)) && (decide (Nat.Prime p) && true))
          [n + 1]) = [] := by
        simp only [List.filter_cons, List.filter_nil]
        have hodd : decide ((n + 1) % 2 = 1) = false := decide_eq_false (by omega)
        rw [hodd]
        simp
      rw [hnil, List.append_nil]
  rw [htrim]
  unfold primesBelow
  have hQ : List.filter (fun i => decide (Nat.Prime i)) (List.range (n + 1))
      = List.filter (fun p => decide (Nat.Prime p) && (fun _ : Nat => true) p)
          (List.range (n + 1)) := by
    apply List.filter_congr
    intro x _
    rw [Bool.and_true]
  rw [hQ, filter_range_prime_split (fun _ => true) (n + 1) (by omega)]
  rfl

theorem primesBelow_eq_map_nth : ∀ m : Nat,
    primesBelow m = (List.range (Nat.count Nat.Prime m)).map (Nat.nth Nat.Prime) := by
  intro m
  induction m with
  | zero => rfl
  | succ m ih =>
    unfold primesBelow at ih ⊢
    rw [List.range_succ, List.filter_append, ih, Nat.count_succ]
    by_cases hp : Nat.Prime m
    · rw [if_pos hp]
      have hone : List.filter (fun i => decide (Nat.Prime i)) [m] = [m] := by
        simp only [List.filter_cons, List.filter_nil, decide_eq_true hp]
        rfl
      rw [hone, List.range_succ, List.map_append]
      congr 1
      rw [List.map_singleton, Nat.nth_count hp]
    · rw [if_neg hp]
      have hzero : List.filter (fun i => decide (Nat.Prime i)) [m] = [] := by
        simp only [List.filter_cons, List.filter_nil, decide_eq_false hp]
        rfl
      rw [hzero, List.append_nil, Nat.add_zero]

theorem length_primesBelow (m : Nat) : (primesBelow m).length = Nat.count Nat.Prime m := by
  rw [primesBelow_eq_map_nth, List.length_map, List.length_range]

theorem lt_nth_of_count_lt {b k : Nat} (hk : 1 ≤ k)
    (h : Nat.count Nat.Prime (b + 1) < k) : b < Nat.nth Nat.Prime (k - 1) := by
  have hinf : (setOf Nat.Prime).Infinite := Nat.infinite_setOf_prime
  have hiff := Nat.lt_nth_iff_count_lt (p := Nat.Prime) hinf (a := k - 1) (b := b + 1)
  have hnot : ¬ (k - 1 < Nat.count Nat.Prime (b + 1)) := by omega
  have := mt hiff.mpr hnot
  omega

/-- Loop body of `first_k_primes` from `goldbach_count.py`: sieve up to the
bound, list the primes, return the first `k` if there are enough, else double
the bound and retry.  The hypothesis `2 ≤ bound` records that the initial
bound is at least 15 (resp. 10) and doubling keeps it there; it makes the
loop provably terminating.  The `none` branch of the sieve is unreachable for
such bounds. -/
def first_k_primes_loop (k bound : Nat) (hb : 2 ≤ bound) : List Nat :=
  match heq : sieve_is_prime bound with
  | none => []
  | some t =>
    if hle : k ≤ (primes_up_to bound t).length then (primes_up_to bound t).take k
    else first_k_primes_loop k (bound * 2) (by omega)
termination_by Nat.nth Nat.Prime (k - 1) + 1 - bound
decreasing_by
  obtain ⟨hlen, hval⟩ := sieve_is_prime_eq_some hb heq
  rw [primes_up_to_correct bound t hb hval, length_primesBelow] at hle
  push_neg at hle
  have hk1 : 1 ≤ k := by omega
  have hlt2 := lt_nth_of_count_lt hk1 hle
  omega

/-- Stand-in for the initial sieve bound of `first_k_primes` when `k ≥ 6`.
The source computes `int(k * (math.log(k) + math.log(math.log(k)))) + 10`
with floating point; the loop's result is independent of the initial bound
(any bound `≥ 2` returns the first `k` primes, proved below), so the
Chebyshev-style float estimate is modelled by a natural-number estimate of
the same shape.  Both are `≥ 10` because of the `+ 10` term. -/
def chebyshev_bound (k : Nat) : Nat :=
  k * (Nat.log 2 k + 1) + 10

/-- Embedding of `first_k_primes` from `goldbach_count.py`. -/
def first_k_primes (k : Nat) : List Nat :=
  if k = 0 then []
  else if k < 6 then first_k_primes_loop k 15 (by omega)
  else first_k_primes_loop k (chebyshev_bound k) (by unfold chebyshev_bound; omega)

/-- The expanding-bound loop returns the first `k` primes from any starting
bound `≥ 2`. -/
theorem first_k_primes_loop_eq (k : Nat) : ∀ (bound : Nat) (hb : 2 ≤ bound),
    first_k_primes_loop k bound hb = (List.range k).map (Nat.nth Nat.Prime) := by
  intro bound hb
  induction bound, hb using first_k_primes_loop.induct k with
  | case1 bound hb heq =>
    obtain ⟨l, hl, _, _⟩ := sieve_is_prime_correct bound hb
    rw [hl] at heq
    cases heq
  | case2 bound hb t heq hle =>
    rw [first_k_primes_loop]
    split
    · rename_i heq2
      rw [heq2] at heq
      cases heq
    · rename_i t2 heq2
      rw [heq2] at heq
      cases heq
      obtain ⟨hlen, hval⟩ := sieve_is_prime_eq_some hb heq2
      rw [dif_pos hle]
      rw [primes_up_to_correct bound _ hb hval] at hle ⊢
      rw [length_primesBelow] at hle
      rw [primesBelow_eq_map_nth]
      rw [← List.map_take, List.take_range, Nat.min_eq_left hle]
  | case3 bound hb t heq hgt ih =>
    rw [first_k_primes_loop]
    split
    · rename_i heq2
      rw [heq2] at heq
      cases heq
    · rename_i t2 heq2
      rw [heq2] at heq
      cases heq
      rw [dif_neg hgt]
      exact ih

theorem first_k_primes_eq (k : Nat) :
    first_k_primes k = (List.range k).map (Nat.nth Nat.Prime) := by
  unfold first_k_primes
  by_cases h0 : k = 0
  · subst h0
    rfl
  · rw [if_neg h0]
    by_cases h6 : k < 6
    · rw [if_pos h6]
      exact first_k_primes_loop_eq k 15 (by omega)
    · rw [if_neg h6]
      exact first_k_primes_loop_eq k (chebyshev_bound k) (by unfold chebyshev_bound; omega)

/-- Embedding of `primorial_from_primes` from `goldbach_count.py`. -/
def primorial_from_primes (ps : List Nat) : Nat :=
  ps.foldl (fun n p => n * p) 1

theorem nth_prime_eq_of_count {p i : Nat} (hp : Nat.Prime p)
    (hc : Nat.count Nat.Prime p = i) : Nat.nth Nat.Prime i = p := by
  rw [← hc]
  exact Nat.nth_count hp

theorem nth_primes_first_eight :
    (List.range 8).map (Nat.nth Nat.Prime) = [2, 3, 5, 7, 11, 13, 17, 19] := by
  have h0 : Nat.nth Nat.Prime 0 = 2 := nth_prime_eq_of_count (by norm_num) (by decide)
  have h1 : Nat.nth Nat.Prime 1 = 3 := nth_prime_eq_of_count (by norm_num) (by decide)
  have h2 : Nat.nth Nat.Prime 2 = 5 := nth_prime_eq_of_count (by norm_num) (by decide)
  have h3 : Nat.nth Nat.Prime 3 = 7 := nth_prime_eq_of_count (by norm_num) (by decide)
  have h4 : Nat.nth Nat.Prime 4 = 11 := nth_prime_eq_of_count (by norm_num) (by decide)
  have h5 : Nat.nth Nat.Prime 5 = 13 := nth_prime_eq_of_count (by norm_num) (by decide)
  have h6 : Nat.nth Nat.Prime 6 = 17 := nth_prime_eq_of_count (by norm_num) (by decide)
  have h7 : Nat.nth Nat.Prime 7 = 19 := nth_prime_eq_of_count (by norm_num) (by decide)
  have hr : List.range 8 = [0, 1, 2, 3, 4, 5, 6, 7] := by rfl
  rw [hr]
  simp only [List.map_cons, List.map_nil, h0, h1, h2, h3, h4, h5, h6, h7]

/-- Model of sympy `nextprime`: the least prime greater than `p`, realised by
a bounded search (the window `[p + 1, 2p + 2]` contains a prime by Bertrand's
postulate, proved in `nextprime_spec`). -/
def nextprime (p : Nat) : Nat :=
  ((List.range' (p + 1) (p + 2)).filter (fun q => decide (Nat.Prime q))).headD 0

theorem headD_le_of_mem_pairwise {l : List Nat} (hp : List.Pairwise (· < ·) l)
    {x : Nat} (hx : x ∈ l) : l.headD 0 ≤ x := by
  cases l with
  | nil => cases hx
  | cons a t =>
    rcases List.mem_cons.mp hx with rfl | hxt
    · exact le_refl x
    · exact le_of_lt ((List.pairwise_cons.mp hp).1 x hxt)

/-- `nextprime p` is a prime, is greater than `p`, and is at most every prime
greater than `p`: it is the least prime above `p`, matching sympy. -/
theorem nextprime_spec (p : Nat) :
    Nat.Prime (nextprime p) ∧ p < nextprime p ∧
      ∀ q, Nat.Prime q → p < q → nextprime p ≤ q := by
  obtain ⟨q0, hq0p, hq0gt, hq0le⟩ : ∃ q0, Nat.Prime q0 ∧ p < q0 ∧ q0 ≤ 2 * p + 2 := by
    obtain ⟨q, hq, hlo, hhi⟩ := Nat.bertrand (p + 1) (by omega)
    exact ⟨q, hq, by omega, by omega⟩
  have hmemL : ∀ x, x ∈ (List.range' (p + 1) (p + 2)).filter (fun q => decide (Nat.Prime q))
      ↔ ((p + 1 ≤ x ∧ x < 2 * p + 3) ∧ Nat.Prime x) := by
    intro x
    rw [List.mem_filter, List.mem_range'_1, decide_eq_true_eq]
    constructor
    · rintro ⟨⟨ha, hb⟩, hc⟩
      exact ⟨⟨ha, by omega⟩, hc⟩
    · rintro ⟨⟨ha, hb⟩, hc⟩
      exact ⟨⟨ha, by omega⟩, hc⟩
  have hq0L : q0 ∈ (List.range' (p + 1) (p + 2)).filter (fun q => decide (Nat.Prime q)) :=
    (hmemL q0).mpr ⟨⟨by omega, by omega⟩, hq0p⟩
  have hhead : nextprime p ∈
      (List.range' (p + 1) (p + 2)).filter (fun q => decide (Nat.Prime q)) := by
    unfold nextprime
    rcases hcase : (List.range' (p + 1) (p + 2)).filter (fun q => decide (Nat.Prime q)) with
      _ | ⟨a, t⟩
    · rw [hcase] at hq0L
      cases hq0L
    · exact List.mem_cons_self a t
  have hhprop := (hmemL _).mp hhead
  have hpair : List.Pairwise (· < ·)
      ((List.range' (p + 1) (p + 2)).filter (fun q => decide (Nat.Prime q))) :=
    List.Pairwise.filter _ (List.pairwise_lt_range' (p + 1) (p + 2) 1)
  refine ⟨hhprop.2, by omega, ?_⟩
  intro q hq hpq
  by_cases hqwin : q < 2 * p + 3
  · exact headD_le_of_mem_pairwise hpair ((hmemL q).mpr ⟨⟨by omega, hqwin⟩, hq⟩)
  · omega

/-- Model of sympy `prime(k)`: the `k`-th prime, 1-indexed (`prime(1) = 2`),
realised by iterating `nextprime` from 2. -/
def sympy_prime (k : Nat) : Nat :=
  nextprime^[k - 1] 2

theorem nextprime_nth (i : Nat) :
    nextprime (Nat.nth Nat.Prime i) = Nat.nth Nat.Prime (i + 1) := by
  have hinf : (setOf Nat.Prime).Infinite := Nat.infinite_setOf_prime
  obtain ⟨hp, hgt, hle⟩ := nextprime_spec (Nat.nth Nat.Prime i)
  apply le_antisymm
  · exact hle _ (Nat.nth_mem_of_infinite hinf (i + 1))
      ((Nat.nth_lt_nth hinf).mpr (by omega))
  · have hj : Nat.nth Nat.Prime (Nat.count Nat.Prime (nextprime (Nat.nth Nat.Prime i)))
        = nextprime (Nat.nth Nat.Prime i) := Nat.nth_count hp
    have hgtj : i < Nat.count Nat.Prime (nextprime (Nat.nth Nat.Prime i)) := by
      by_contra hle2
      push_neg at hle2
      have := (Nat.nth_le_nth hinf).mpr hle2
      omega
    calc Nat.nth Nat.Prime (i + 1)
        ≤ Nat.nth Nat.Prime (Nat.count Nat.Prime (nextprime (Nat.nth Nat.Prime i))) :=
          (Nat.nth_le_nth hinf).mpr (by omega)
      _ = nextprime (Nat.nth Nat.Prime i) := hj

theorem sympy_prime_eq_nth (k : Nat) : sympy_prime (k + 1) = Nat.nth Nat.Prime k := by
  induction k with
  | zero =>
    unfold sympy_prime
    have h2 : Nat.nth Nat.Prime 0 = 2 := nth_prime_eq_of_count (by norm_num) (by decide)
    rw [h2]
    rfl
  | succ k ih =>
    unfold sympy_prime at ih ⊢
    have hs : k + 1 + 1 - 1 = (k + 1 - 1) + 1 := by omega
    rw [hs, Function.iterate_succ_apply', ih, nextprime_nth]

/-- Model of sympy `primorial(k)`: the product of the first `k` primes. -/
def sympy_primorial (k : Nat) : Nat :=
  ((List.range k).map (fun i => sympy_prime (i + 1))).prod

theorem sympy_prime_two_le (k : Nat) : 2 ≤ sympy_prime k := by
  unfold sympy_prime
  induction k - 1 with
  | zero => exact le_refl 2
  | succ i ih =>
    rw [Function.iterate_succ_apply']
    obtain ⟨hp, _, _⟩ := nextprime_spec (nextprime^[i] 2)
    exact hp.two_le

theorem sympy_primorial_ge_thirty {k : Nat} (hk : 3 ≤ k) : 30 ≤ sympy_primorial k := by
  unfold sympy_primorial
  have hk3 : k = 3 + (k - 3) := by omega
  have hsplit : List.range k = List.range 3 ++ (List.range (k - 3)).map (fun x => 3 + x) := by
    conv_lhs => rw [hk3]
    exact List.range_add 3 (k - 3)
  rw [hsplit, List.map_append, List.prod_append]
  have hfirst : ((List.range 3).map (fun i => sympy_prime (i + 1))).prod = 30 := by
    have hr : List.range 3 = [0, 1, 2] := by rfl
    rw [hr]
    simp only [List.map_cons, List.map_nil, List.prod_cons, List.prod_nil]
    rw [show ((0:Nat)+1) = 1 from rfl, show ((1:Nat)+1) = 2 from rfl, show ((2:Nat)+1) = 3 from rfl]
    have hp1 : sympy_prime 1 = 2 := by rfl
    have hp2 : sympy_prime 2 = 3 := by
      have := sympy_prime_eq_nth 1
      rw [this]
      exact nth_prime_eq_of_count (by norm_num) (by decide)
    have hp3 : sympy_prime 3 = 5 := by
      have := sympy_prime_eq_nth 2
      rw [this]
      exact nth_prime_eq_of_count (by norm_num) (by decide)
    rw [hp1, hp2, hp3]
    norm_num
  have hrest : 1 ≤ (((List.range (k - 3)).map (fun x => 3 + x)).map
      (fun i => sympy_prime (i + 1))).prod := by
    apply Nat.one_le_iff_ne_zero.mpr
    intro hzero
    have h0mem := List.prod_eq_zero_iff.mp hzero
    rw [List.mem_map] at h0mem
    obtain ⟨a, _, ha⟩ := h0mem
    have := sympy_prime_two_le (a + 1)
    omega
  calc (30 : Nat) = 30 * 1 := by omega
    _ ≤ ((List.range 3).map (fun i => sympy_prime (i + 1))).prod *
        (((List.range (k - 3)).map (fun x => 3 + x)).map (fun i => sympy_prime (i + 1))).prod := by
        rw [hfirst]
        exact Nat.mul_le_mul_left 30 hrest

/-- Embedding of `lpf` from `lpf_symmetry_verification.py`.  `None` for
`n <= 1`; `n` itself when sympy `isprime(n)` holds; otherwise the least key
of sympy `factorint(n)`, i.e. the least prime factor, which for an integer
`n ≥ 2` is `Nat.minFac` of its absolute value (here `n.toNat`, as `n ≥ 2`). -/
def lpf (n : Int) : Option Int :=
  if n ≤ 1 then none
  else if Nat.Prime n.toNat then some n
  else some ((Nat.minFac n.toNat : Nat) : Int)

theorem nextprime_gt (p : Nat) : p < nextprime p :=
  (nextprime_spec p).2.1

/-- Loop of `count_goldbach_representations` from `amplification_testing.py`:
advance `p` through the primes with sympy `nextprime`, test `q = N - p`, count
(`q > 0 and isprime(q)`), and stop early once `max_primes` (when truthy,
i.e. not `None` and nonzero) many primes have been tested.  The updated
count `count2 = count + (1 if q prime else 0)` and `tested2 = tested + 1`
are written inline in both the break and the loop branch. -/
def cgr_loop (N p_end : Nat) (max_primes : Option Nat) (p count tested : Nat) : Nat × Nat :=
  if _hp : p ≤ p_end then
    if Nat.Prime p then
      if (match max_primes with
          | none => false
          | some m => decide (m ≠ 0) && decide (m ≤ tested + 1)) then
        ((if 0 < N - p ∧ Nat.Prime (N - p) then count + 1 else count), tested + 1)
      else cgr_loop N p_end max_primes (nextprime p)
        (if 0 < N - p ∧ Nat.Prime (N - p) then count + 1 else count) (tested + 1)
    else cgr_loop N p_end max_primes (nextprime p) count tested
  else (count, tested)
termination_by p_end + 1 - p
decreasing_by
  · have := nextprime_gt p
    omega
  · have := nextprime_gt p
    omega

/-- Embedding of `count_goldbach_representations` from
`amplification_testing.py`; `none` models the `ValueError` raised on odd `N`. -/
def count_goldbach_representations (N p_start p_end : Nat)
    (max_primes : Option Nat) : Option (Nat × Nat) :=
  if N % 2 ≠ 0 then none
  else some (cgr_loop N p_end max_primes p_start 0 0)

theorem cgr_loop_count_le (N p_end : Nat) (max_primes : Option Nat) :
    ∀ p count tested, count ≤ tested →
      (cgr_loop N p_end max_primes p count tested).1
        ≤ (cgr_loop N p_end max_primes p count tested).2 := by
  intro p count tested hct
  induction p, count, tested using cgr_loop.induct N p_end max_primes with
  | case1 p count tested hp hprime hbreak =>
    rw [cgr_loop.eq_def, dif_pos hp, if_pos hprime, if_pos hbreak]
    dsimp only
    split <;> omega
  | case2 p count tested hp hprime hbreak ih =>
    rw [cgr_loop.eq_def, dif_pos hp, if_pos hprime, if_neg hbreak]
    apply ih
    split <;> omega
  | case3 p count tested hp hprime ih =>
    rw [cgr_loop.eq_def, dif_pos hp, if_neg hprime]
    exact ih hct
  | case4 p count tested hp =>
    rw [cgr_loop.eq_def, dif_neg hp]
    exact hct

theorem cgr_loop_cap (N p_end : Nat) (mp : Option Nat) (m : Nat) (hmp : mp = some m)
    (hm : 1 ≤ m) :
    ∀ p count tested, tested < m →
      (cgr_loop N p_end mp p count tested).2 ≤ m := by
  intro p count tested htm
  induction p, count, tested using cgr_loop.induct N p_end mp with
  | case1 p count tested hp hprime hbreak =>
    rw [cgr_loop.eq_def, dif_pos hp, if_pos hprime, if_pos hbreak]
    rw [hmp] at hbreak
    simp only [decide_eq_true_eq, Bool.and_eq_true] at hbreak
    omega
  | case2 p count tested hp hprime hbreak ih =>
    rw [cgr_loop.eq_def, dif_pos hp, if_pos hprime, if_neg hbreak]
    apply ih
    rw [hmp] at hbreak
    simp only [decide_eq_true_eq, Bool.and_eq_true, not_and] at hbreak
    have := hbreak (by omega)
    omega
  | case3 p count tested hp hprime ih =>
    rw [cgr_loop.eq_def, dif_pos hp, if_neg hprime]
    exact ih htm
  | case4 p count tested hp =>
    rw [cgr_loop.eq_def, dif_neg hp]
    omega

/-- Result record of `verify_lpf_symmetry` (the fields the claims are about:
`pairs`, the aggregate `ratio`, and the two `Counter` totals). -/
structure LPFSymmetryResult where
  k : Nat
  N : Nat
  pairs : Nat
  ratio : Rat
  total_left : Nat
  total_right : Nat

/-- Python `sum(Counter(xs).values())`: the sum, over the distinct values of
the list, of their multiplicities. -/
def counter_total (l : List (Option Int)) : Nat :=
  (l.dedup.map (fun v => @List.count (Option Int) instBEqOfDecidableEq v l)).sum

/-- `sum(Counter(left_lpfs).values())` of `verify_lpf_symmetry`: total of the
left frequency table over the scan `x` in `range(3, N // 2)`,
`N = primorial(k)`. -/
def lpf_scan_left (k : Nat) : Nat :=
  counter_total ((pyRange 3 (sympy_primorial k / 2) 1).map (fun x : Nat => lpf (x : Int)))

/-- `sum(Counter(right_lpfs).values())` of `verify_lpf_symmetry`: total of the
right frequency table (`lpf(N - x)`). -/
def lpf_scan_right (k : Nat) : Nat :=
  counter_total ((pyRange 3 (sympy_primorial k / 2) 1).map
    (fun x : Nat => lpf ((sympy_primorial k : Int) - (x : Int))))

/-- Embedding of the computational core of `verify_lpf_symmetry` from
`lpf_symmetry_verification.py` (verbose printing and the per-LPF display list
omitted): scan `x` in `range(3, N // 2)` with `N = primorial(k)`, collect
`lpf(x)` and `lpf(N - x)`, total the two frequency counters, and compute the
aggregate ratio `total_left / total_right` (0 when `total_right` is 0).
The returned `pairs` field is `total_left`. -/
def verify_lpf_symmetry (k : Nat) : LPFSymmetryResult :=
  { k := k
    N := sympy_primorial k
    pairs := lpf_scan_left k
    ratio := if 0 < lpf_scan_right k
      then (lpf_scan_left k : Rat) / (lpf_scan_right k : Rat) else 0
    total_left := lpf_scan_left k
    total_right := lpf_scan_right k }

theorem counter_total_eq_length (l : List (Option Int)) : counter_total l = l.length := by
  unfold counter_total
  exact List.sum_map_count_dedup_eq_length l

/-- Embedding of `theoretical_baseline` from `amplification_testing.py` over
`ℝ` (the Python code computes in floating point): `C * num_primes / log N`
with `C = 1.32`, and `0.0` when `N <= 2`. -/
noncomputable def theoretical_baseline (N num_primes : Nat) : Real :=
  if N ≤ 2 then 0 else 1.32 * (num_primes : Real) / Real.log (N : Real)

/-- Embedding of the amplification computation in
`test_primorial_amplification`: `actual / expected` when `expected > 0`, else
`float('inf')`, modelled as `⊤ : EReal`. -/
noncomputable def observed_amplification (actual : Nat) (expected : Real) : EReal :=
  if 0 < expected then (((actual : Real) / expected : Real) : EReal) else ⊤

/-- Embedding of the closed-form prediction in
`test_primorial_amplification`: `exp(gamma) * log(p_k)` with
`gamma = 0.5772156649` and `p_k = prime(k)` the `k`-th prime (not `N`). -/
noncomputable def theoretical_amplification (k : Nat) : Real :=
  Real.exp 0.5772156649 * Real.log ((sympy_prime k : Nat) : Real)

/-- Embedding of the success flag: `actual_count >= 1`. -/
def success_flag (actual : Nat) : Bool :=
  decide (1 ≤ actual)

/-- Claim C1: for every `N ≥ 2`, `sieve_is_prime N` returns a table of size
`N + 1` whose entry `i` is true exactly when `i` is prime; in particular for
`N = 30` the marked indices are exactly {2, 3, 5, 7, 11, 13, 17, 19, 23, 29},
indices 0 and 1 are false, index 2 is true, and every even index above 2 is
false. -/
theorem claim_C1 :
    (∀ N, 2 ≤ N → ∃ l, sieve_is_prime N = some l ∧ l.length = N + 1 ∧
      ∀ i, i ≤ N → (l.getD i false = true ↔ Nat.Prime i))
    ∧ (∀ l, sieve_is_prime 30 = some l →
        ((List.range 31).filter (fun i => l.getD i false)
            = [2, 3, 5, 7, 11, 13, 17, 19, 23, 29]
          ∧ l.getD 0 false = false ∧ l.getD 1 false = false ∧ l.getD 2 false = true
          ∧ ∀ i, 2 < i → i ≤ 30 → i % 2 = 0 → l.getD i false = false)) := by
  constructor
  · intro N hN
    obtain ⟨l, hl, hlen, hval⟩ := sieve_is_prime_correct N hN
    refine ⟨l, hl, hlen, fun i hi => ?_⟩
    rw [hval i hi]
    exact ⟨of_decide_eq_true, decide_eq_true⟩
  · intro l hl
    obtain ⟨hlen, hval⟩ := sieve_is_prime_eq_some (by omega) hl
    have hfil : (List.range 31).filter (fun i => l.getD i false)
        = (List.range 31).filter (fun i => decide (Nat.Prime i)) := by
      apply List.filter_congr
      intro x hx
      rw [List.mem_range] at hx
      rw [hval x (by omega)]
    refine ⟨?_, ?_, ?_, ?_, ?_⟩
    · rw [hfil]
      decide
    · rw [hval 0 (by omega)]
      decide
    · rw [hval 1 (by omega)]
      decide
    · rw [hval 2 (by omega)]
      decide
    · intro i h2i h30 hev
      rw [hval i (by omega)]
      apply decide_eq_false
      intro hp
      rcases hp.eq_one_or_self_of_dvd 2 (Nat.dvd_of_mod_eq_zero hev) with h | h <;> omega

/-- Witness for claim C1 at the concrete input `N = 30`. -/
theorem claim_C1_witness :
    2 ≤ 30 ∧ ∃ l, sieve_is_prime 30 = some l ∧ l.length = 31
      ∧ (l.getD 29 false = true ↔ Nat.Prime 29)
      ∧ (List.range 31).filter (fun i => l.getD i false)
          = [2, 3, 5, 7, 11, 13, 17, 19, 23, 29] := by
  obtain ⟨l, hl, hlen, hval⟩ := claim_C1.1 30 (by norm_num)
  exact ⟨by norm_num, l, hl, hlen, hval 29 (by norm_num), (claim_C1.2 l hl).1⟩

/-- Claim C9 (code bug): the spec says `sieve(N)` for `N < 2` returns an
all-false table of size `N + 1` without error; the code does so for `N = 0`
but raises `IndexError` for `N = 1` (modelled as `none`), because the guard
is `n < 1` instead of `n < 2`.  `N = 2` and `N = 3` yield the minimal valid
tables. -/
theorem claim_C9 :
    sieve_is_prime 0 = some [false]
    ∧ sieve_is_prime 1 = none
    ∧ sieve_is_prime 2 = some [false, false, true]
    ∧ sieve_is_prime 3 = some [false, false, true, true] := by
  have hs1 : Nat.sqrt 1 = 1 := by norm_num
  have hs2 : Nat.sqrt 2 = 1 := by norm_num
  have hs3 : Nat.sqrt 3 = 1 := by norm_num
  refine ⟨by decide, ?_, ?_, ?_⟩
  · unfold sieve_is_prime sieveLoop
    rw [hs1]
    decide
  · unfold sieve_is_prime sieveLoop
    rw [hs2]
    decide
  · unfold sieve_is_prime sieveLoop
    rw [hs3]
    decide

/-- Claim C2: for every even `N ≥ 4` and every primality table correct on
`[0, N]`, `goldbach_count` returns the number of primes `p ≤ N / 2` with
`N - p` prime; in particular it returns 3 on `(30, sieve(30))` and 1 on
`(4, sieve(4))`. -/
theorem claim_C2 :
    (∀ N t, 4 ≤ N → N % 2 = 0 →
      (∀ j, j ≤ N → t.getD j false = decide (Nat.Prime j)) →
      goldbach_count N t = goldbach_spec_count N)
    ∧ (∀ l, sieve_is_prime 30 = some l → goldbach_count 30 l = 3)
    ∧ (∀ l, sieve_is_prime 4 = some l → goldbach_count 4 l = 1)
    ∧ goldbach_spec_count 30 = 3
    ∧ goldbach_spec_count 4 = 1 := by
  refine ⟨goldbach_count_correct, ?_, ?_, by decide, by decide⟩
  · intro l hl
    obtain ⟨_, hval⟩ := sieve_is_prime_eq_some (by omega) hl
    rw [goldbach_count_correct 30 l (by omega) (by omega) hval]
    decide
  · intro l hl
    obtain ⟨_, hval⟩ := sieve_is_prime_eq_some (by omega) hl
    rw [goldbach_count_correct 4 l (by omega) (by omega) hval]
    decide

/-- Witness for claim C2 at the concrete input `N = 30` with an explicit
correct table. -/
theorem claim_C2_witness :
    goldbach_count 30
        [false, false, true, true, false, true, false, true, false, false,
         false, true, false, true, false, false, false, true, false, true,
         false, false, false, true, false, false, false, false, false, true,
         false]
      = goldbach_spec_count 30 :=
  claim_C2.1 30 _ (by norm_num) (by norm_num) (by decide)

/-- Claim C3: the expanding-bound generator `first_k_primes` terminates (it
is a total function, defined by well-founded recursion on the distance from
the bound to the `k`-th prime) and returns exactly the first `k` primes in
strictly increasing order; consequently the 5th prime is 11,
`primorial(5) = 2310`, `primorial(8) = 9699690`, and `primorial(0) = 1`. -/
theorem claim_C3 :
    (∀ k, first_k_primes k = (List.range k).map (Nat.nth Nat.Prime))
    ∧ (∀ k, List.Pairwise (· < ·) (first_k_primes k))
    ∧ (∀ k p, p ∈ first_k_primes k → Nat.Prime p)
    ∧ first_k_primes 5 = [2, 3, 5, 7, 11]
    ∧ primorial_from_primes (first_k_primes 5) = 2310
    ∧ primorial_from_primes (first_k_primes 8) = 9699690
    ∧ primorial_from_primes (first_k_primes 0) = 1 := by
  have hinf : (setOf Nat.Prime).Infinite := Nat.infinite_setOf_prime
  have h5 : first_k_primes 5 = [2, 3, 5, 7, 11] := by
    rw [first_k_primes_eq]
    have htake : (List.range 5).map (Nat.nth Nat.Prime)
        = ((List.range 8).map (Nat.nth Nat.Prime)).take 5 := by
      rw [← List.map_take, List.take_range]
      norm_num
    rw [htake, nth_primes_first_eight]
    rfl
  have h8 : first_k_primes 8 = [2, 3, 5, 7, 11, 13, 17, 19] := by
    rw [first_k_primes_eq, nth_primes_first_eight]
  refine ⟨first_k_primes_eq, ?_, ?_, h5, ?_, ?_, ?_⟩
  · intro k
    rw [first_k_primes_eq]
    rw [List.pairwise_map]
    apply List.Pairwise.imp ?_ (List.pairwise_lt_range k)
    intro a b hab
    exact (Nat.nth_lt_nth hinf).mpr hab
  · intro k p hp
    rw [first_k_primes_eq, List.mem_map] at hp
    obtain ⟨i, _, rfl⟩ := hp
    exact Nat.nth_mem_of_infinite hinf i
  · rw [h5]
    rfl
  · rw [h8]
    rfl
  · rfl

/-- Claim C4: `lpf` is explicitly absent for every integer `n ≤ 1`, returns
`n` itself for prime `n`, and for composite `n ≥ 4` returns a prime divisor
of `n` that is at most every other prime factor. -/
theorem claim_C4 :
    (∀ n : Int, n ≤ 1 → lpf n = none)
    ∧ (∀ p : Nat, Nat.Prime p → lpf (p : Int) = some ((p : Nat) : Int))
    ∧ (∀ n : Nat, 4 ≤ n → ¬ Nat.Prime n →
        lpf (n : Int) = some ((Nat.minFac n : Nat) : Int)
        ∧ Nat.Prime (Nat.minFac n)
        ∧ Nat.minFac n ∣ n
        ∧ ∀ q : Nat, Nat.Prime q → q ∣ n → Nat.minFac n ≤ q) := by
  refine ⟨?_, ?_, ?_⟩
  · intro n hn
    unfold lpf
    rw [if_pos hn]
  · intro p hp
    unfold lpf
    have h2 := hp.two_le
    rw [if_neg (by exact_mod_cast (by omega : ¬ (p ≤ 1)))]
    rw [Int.toNat_natCast]
    rw [if_pos hp]
  · intro n h4 hnp
    have hguard : ¬ ((n : Int) ≤ 1) := by exact_mod_cast (by omega : ¬ (n ≤ 1))
    refine ⟨?_, Nat.minFac_prime (by omega), Nat.minFac_dvd n, ?_⟩
    · unfold lpf
      rw [if_neg hguard, Int.toNat_natCast, if_neg hnp]
    · intro q hq hdvd
      exact Nat.minFac_le_of_dvd hq.two_le hdvd

/-- Witness for claim C4 at the concrete inputs 0, 7, and 9. -/
theorem claim_C4_witness :
    lpf 0 = none
    ∧ lpf ((7 : Nat) : Int) = some (((7 : Nat) : Nat) : Int)
    ∧ (lpf ((9 : Nat) : Int) = some ((Nat.minFac 9 : Nat) : Int)
        ∧ Nat.Prime (Nat.minFac 9)
        ∧ Nat.minFac 9 ∣ 9
        ∧ ∀ q : Nat, Nat.Prime q → q ∣ 9 → Nat.minFac 9 ≤ q) :=
  ⟨claim_C4.1 0 (by norm_num), claim_C4.2.1 7 (by norm_num),
    claim_C4.2.2 9 (by norm_num) (by norm_num)⟩

theorem nextprime_two : nextprime 2 = 3 := by decide

theorem nextprime_three : nextprime 3 = 5 := by decide

theorem cgr_eval_cap_zero : cgr_loop 4 3 (some 0) 2 0 0 = (1, 2) := by
  rw [cgr_loop.eq_def]
  rw [dif_pos (by norm_num : (2 : Nat) ≤ 3), if_pos (by norm_num : Nat.Prime 2),
    if_neg (by decide)]
  rw [nextprime_two]
  rw [cgr_loop.eq_def]
  rw [dif_pos (by norm_num : (3 : Nat) ≤ 3), if_pos (by norm_num : Nat.Prime 3),
    if_neg (by decide)]
  rw [nextprime_three]
  rw [cgr_loop.eq_def]
  rw [dif_neg (by norm_num : ¬ ((5 : Nat) ≤ 3))]
  norm_num

theorem cgr_eval_cap_one : cgr_loop 4 3 (some 1) 2 0 0 = (1, 1) := by
  rw [cgr_loop.eq_def]
  rw [dif_pos (by norm_num : (2 : Nat) ≤ 3), if_pos (by norm_num : Nat.Prime 2),
    if_pos (by decide)]
  norm_num

/-- Claim C5 counterexample: with the non-negative cap `max_primes = 0` the
sampling counter does not respect `tested ≤ max_primes` — Python's
`if max_primes and tested >= max_primes` treats 0 as falsy, so the cap is
ignored and the full range is scanned: on `(N, p_start, p_end) = (4, 2, 3)`
it returns `(count, tested) = (1, 2)` with `2 > 0`. -/
theorem claim_C5_counterexample :
    count_goldbach_representations 4 2 3 (some 0) = some (1, 2) ∧ ¬ ((2 : Nat) ≤ 0) := by
  constructor
  · unfold count_goldbach_representations
    rw [if_neg (by norm_num)]
    rw [cgr_eval_cap_zero]
  · norm_num

/-- Claim C5 amended: `count ≤ tested` always holds, and `tested ≤ max_primes`
holds for every positive cap `max_primes ≥ 1` (for cap 0 the Python truthiness
test disables the cap, see the counterexample). -/
theorem claim_C5_amended :
    (∀ N ps pe mp c t,
      count_goldbach_representations N ps pe mp = some (c, t) → c ≤ t)
    ∧ (∀ N ps pe m c t, 1 ≤ m →
      count_goldbach_representations N ps pe (some m) = some (c, t) → t ≤ m) := by
  constructor
  · intro N ps pe mp c t h
    unfold count_goldbach_representations at h
    by_cases hodd : N % 2 ≠ 0
    · rw [if_pos hodd] at h
      cases h
    · rw [if_neg hodd] at h
      have hpair : cgr_loop N pe mp ps 0 0 = (c, t) := Option.some.inj h
      have := cgr_loop_count_le N pe mp ps 0 0 (le_refl 0)
      rw [hpair] at this
      exact this
  · intro N ps pe m c t hm h
    unfold count_goldbach_representations at h
    by_cases hodd : N % 2 ≠ 0
    · rw [if_pos hodd] at h
      cases h
    · rw [if_neg hodd] at h
      have hpair : cgr_loop N pe (some m) ps 0 0 = (c, t) := Option.some.inj h
      have := cgr_loop_cap N pe (some m) m rfl hm ps 0 0 (by omega)
      rw [hpair] at this
      exact this

/-- Witness for the amended claim C5 at `(N, p_start, p_end, max_primes)
= (4, 2, 3, 1)`, where the counter returns `(1, 1)`. -/
theorem claim_C5_witness :
    count_goldbach_representations 4 2 3 (some 1) = some (1, 1)
    ∧ (1 : Nat) ≤ 1 ∧ (1 : Nat) ≤ 1 := by
  have hcomp : count_goldbach_representations 4 2 3 (some 1) = some (1, 1) := by
    unfold count_goldbach_representations
    rw [if_neg (by norm_num)]
    rw [cgr_eval_cap_one]
  exact ⟨hcomp, claim_C5_amended.1 4 2 3 (some 1) 1 1 hcomp,
    claim_C5_amended.2 4 2 3 1 1 1 (by norm_num) hcomp⟩

/-- Claim C8 counterexample: for odd `N` the exact-mode counter does not fail
with an invalid-input error — `goldbach_count` is a total function that simply
returns 0 (its guard `if N < 4 or N % 2 == 1: return 0` runs before any table
access); only the sampling-mode counter raises (`none`).  Shown at `N = 5`
with the correct table for `[0, 5]`. -/
theorem claim_C8_counterexample :
    goldbach_count 5 [false, false, true, true, false, true] = 0
    ∧ count_goldbach_representations 5 2 3 (some 10) = none := by
  constructor
  · decide
  · decide

/-- Claim C8 amended: for every odd `N` the sampling-mode counter fails
immediately with an invalid-input error (no partial computation); the
exact-mode counter does not fail: it immediately returns 0 for odd `N` (and
for `N < 4`). -/
theorem claim_C8_amended :
    ∀ N ps pe mp (t : List Bool),
      (N % 2 = 1 → count_goldbach_representations N ps pe mp = none)
      ∧ (N % 2 = 1 ∨ N < 4 → goldbach_count N t = 0) := by
  intro N ps pe mp t
  constructor
  · intro hodd
    unfold count_goldbach_representations
    rw [if_pos (by omega)]
  · intro hcond
    unfold goldbach_count
    rw [if_pos (by omega)]

/-- Witness for the amended claim C8 at `N = 5`. -/
theorem claim_C8_witness :
    count_goldbach_representations 5 2 3 none = none
    ∧ goldbach_count 5 [] = 0 :=
  ⟨(claim_C8_amended 5 2 3 none []).1 (by norm_num),
    (claim_C8_amended 5 2 3 none []).2 (Or.inl (by norm_num))⟩

theorem lpf_scan_left_length (k : Nat) :
    lpf_scan_left k = sympy_primorial k / 2 - 3 := by
  unfold lpf_scan_left
  rw [counter_total_eq_length, List.length_map, length_pyRange, Nat.div_one]
  omega

theorem lpf_scan_right_length (k : Nat) :
    lpf_scan_right k = sympy_primorial k / 2 - 3 := by
  unfold lpf_scan_right
  rw [counter_total_eq_length, List.length_map, length_pyRange, Nat.div_one]
  omega

/-- Claim C6: for every `k ≥ 3` (so `N = primorial(k) ≥ 30`), the LPF
symmetry scan produces left and right frequency tables whose totals both
equal `N / 2 - 3`, and the aggregate ratio is `total_left / total_right`,
well defined (the denominator is positive) and exactly 1. -/
theorem claim_C6 (k : Nat) (hk : 3 ≤ k) :
    (verify_lpf_symmetry k).total_left = (verify_lpf_symmetry k).N / 2 - 3
    ∧ (verify_lpf_symmetry k).total_right = (verify_lpf_symmetry k).N / 2 - 3
    ∧ (verify_lpf_symmetry k).pairs = (verify_lpf_symmetry k).N / 2 - 3
    ∧ 0 < (verify_lpf_symmetry k).total_right
    ∧ (verify_lpf_symmetry k).ratio
        = ((verify_lpf_symmetry k).total_left : Rat) / ((verify_lpf_symmetry k).total_right : Rat)
    ∧ (verify_lpf_symmetry k).ratio = 1 := by
  have h30 := sympy_primorial_ge_thirty hk
  have hL := lpf_scan_left_length k
  have hR := lpf_scan_right_length k
  have hpos : 0 < lpf_scan_right k := by
    rw [hR]
    omega
  simp only [verify_lpf_symmetry]
  refine ⟨hL, hR, hL, hpos, ?_, ?_⟩
  · rw [if_pos hpos]
  · rw [if_pos hpos, hL, hR]
    apply div_self
    have : (0 : Nat) < sympy_primorial k / 2 - 3 := by omega
    exact_mod_cast Nat.pos_iff_ne_zero.mp this

/-- Witness for claim C6 at `k = 3` (`N = 30`). -/
theorem claim_C6_witness :
    3 ≤ 3 ∧ (verify_lpf_symmetry 3).ratio = 1 :=
  ⟨by norm_num, (claim_C6 3 (by norm_num)).2.2.2.2.2⟩

/-- Claim C10: invoked with `k = 1` (`N = 2`) or `k = 2` (`N = 6`), the scan
range `[3, N // 2)` is empty, and the analysis returns normally with
`pairs = 0` and an aggregate ratio of 0 (not 1 and not an error), because
the ratio defaults to 0 whenever the right-hand total is 0. -/
theorem claim_C10 :
    (verify_lpf_symmetry 1).pairs = 0 ∧ (verify_lpf_symmetry 1).ratio = 0
    ∧ (verify_lpf_symmetry 2).pairs = 0 ∧ (verify_lpf_symmetry 2).ratio = 0
    ∧ (verify_lpf_symmetry 1).ratio ≠ 1 ∧ (verify_lpf_symmetry 2).ratio ≠ 1 := by
  refine ⟨by decide, by decide, by decide, by decide, by decide, by decide⟩

theorem theoretical_baseline_nonneg (N tested : Nat) :
    0 ≤ theoretical_baseline N tested := by
  unfold theoretical_baseline
  by_cases hN : N ≤ 2
  · rw [if_pos hN]
  · rw [if_neg hN]
    apply div_nonneg
    · positivity
    · apply Real.log_nonneg
      have : (1 : Nat) ≤ N := by omega
      exact_mod_cast this

/-- Claim C7: the theoretical baseline is `1.32 * tested / ln N` (0 when
`N ≤ 2`); the observed amplification is `actual / baseline`, infinite exactly
when the baseline is 0 (in particular when `N ≤ 2`); the closed-form
theoretical amplification is `e^gamma * ln(p_k)` with `gamma = 0.5772156649`
and `p_k` the `k`-th prime (not `N`); the success flag holds exactly when
`actual ≥ 1`. -/
theorem claim_C7 (N tested actual k : Nat) :
    theoretical_baseline N tested
        = (if N ≤ 2 then (0 : Real) else 1.32 * (tested : Real) / Real.log (N : Real))
    ∧ (0 < theoretical_baseline N tested ↔ (2 < N ∧ 0 < tested))
    ∧ (observed_amplification actual (theoretical_baseline N tested) = ⊤
        ↔ (theoretical_baseline N tested = 0 ∨ N ≤ 2))
    ∧ observed_amplification actual (theoretical_baseline N tested)
        = (if 0 < theoretical_baseline N tested
            then (((actual : Real) / theoretical_baseline N tested : Real) : EReal) else ⊤)
    ∧ theoretical_amplification k
        = Real.exp 0.5772156649 * Real.log ((sympy_prime k : Nat) : Real)
    ∧ sympy_prime (k + 1) = Nat.nth Nat.Prime k
    ∧ (success_flag actual = true ↔ 1 ≤ actual) := by
  have hnonneg := theoretical_baseline_nonneg N tested
  have hposiff : 0 < theoretical_baseline N tested ↔ (2 < N ∧ 0 < tested) := by
    unfold theoretical_baseline
    by_cases hN : N ≤ 2
    · rw [if_pos hN]
      constructor
      · intro h
        exact absurd h (lt_irrefl 0)
      · rintro ⟨h2, _⟩
        omega
    · rw [if_neg hN]
      have hlog : 0 < Real.log (N : Real) := by
        apply Real.log_pos
        have : (1 : Nat) < N := by omega
        exact_mod_cast this
      constructor
      · intro hpos
        refine ⟨by omega, ?_⟩
        rcases Nat.eq_zero_or_pos tested with h0 | h1
        · subst h0
          rw [Nat.cast_zero, mul_zero, zero_div] at hpos
          exact absurd hpos (lt_irrefl 0)
        · exact h1
      · rintro ⟨_, ht⟩
        apply div_pos _ hlog
        have : (0 : Real) < (tested : Real) := by exact_mod_cast ht
        nlinarith
  refine ⟨rfl, hposiff, ?_, rfl, rfl, sympy_prime_eq_nth k, by
    unfold success_flag
    exact ⟨of_decide_eq_true, decide_eq_true⟩⟩
  unfold observed_amplification
  by_cases hpos : 0 < theoretical_baseline N tested
  · rw [if_pos hpos]
    constructor
    · intro htop
      exact absurd htop (EReal.coe_ne_top _)
    · rintro (h0 | hN2)
      · rw [h0] at hpos
        exact absurd hpos (lt_irrefl 0)
      · have := hposiff.mp hpos
        omega
  · rw [if_neg hpos]
    have h0 : theoretical_baseline N tested = 0 := le_antisymm (le_of_not_lt hpos) hnonneg
    exact ⟨fun _ => Or.inl h0, fun _ => rfl⟩

/-- Witness for claim C3: the membership part applied at the concrete prime
2 of `first_k_primes 5`. -/
theorem claim_C3_witness : 2 ∈ first_k_primes 5 ∧ Nat.Prime 2 := by
  have hmem : 2 ∈ first_k_primes 5 := by
    rw [claim_C3.2.2.2.1]
    norm_num
  exact ⟨hmem, claim_C3.2.2.1 5 2 hmem⟩
